import Mathlib

/-!
Shallow embedding of `src/src/multiexp.rs` (the parallel multi-scalar
multiplication engine) and proofs about it.

Modelling conventions, fixed once for the whole file:

* The curve group is an arbitrary additive commutative group `G`.  Affine and
  projective points are both modelled as elements of `G`; `add_assign_mixed`
  becomes plain addition.  `G::Projective::zero()` is `0`.
* A scalar representation (`<G::Scalar as PrimeField>::Repr`, a little-endian
  multi-limb big integer) is modelled as a `Nat`.  `repr.shr(skip)` is
  `k >>> skip`, and reading the low limb `repr.as_ref()[0]` is `% 2 ^ 64`.
  `NUM_BITS` is a parameter `b`.
* `pool.compute(closure)` runs the closure and the returned future yields its
  result; worker scheduling cannot change any value computed here, so the
  embedding evaluates the closures directly, in order.
* Cache prefetch calls (`prefetch_l3_pointer`) are advisory no-ops and are not
  modelled as state; the bucket index they compute is the same `digit`
  expression proved in bounds below.
* Rust functions that can fail return `Except`/`RunResult`; an `assert!`
  failure is the distinguished outcome `RunResult.panicked`, and a
  non-terminating call (infinite recursion / infinite loop) is
  `RunResult.nonterm`, produced by giving the recursion enough fuel that it can
  only run out when the Rust original never returns.
* `src/source.rs` and `src/worker.rs` are not part of the given sources; the
  base source, the density map and the worker pool are modelled from the
  spec (sections 4.3, 6.2, 6.5 and 7) where noted on each definition.
-/

namespace BellmanMultiexp

/-- Modelled from the spec: the error taxonomy of section 7.
`assignmentMissing` is `SynthesisError::AssignmentMissing`, the value the dense
entry points return on a length mismatch (multiexp.rs lines 648-650, 1411-1413).
`sourceExhausted` is the spec's `SourceExhausted`: the base source ran out
before iteration completed (source.rs is not in src/). -/
inductive SynthesisError where
  | assignmentMissing : SynthesisError
  | sourceExhausted : SynthesisError
deriving DecidableEq, Repr

/-- Outcome of running one of the Rust entry points: a value, a returned
error, a panic (failed `assert!`), or non-termination. -/
inductive RunResult (G : Type) where
  | ok : G → RunResult G
  | err : SynthesisError → RunResult G
  | panicked : RunResult G
  | nonterm : RunResult G
deriving DecidableEq, Repr

deriving instance DecidableEq for Except

section Defs

variable {G : Type} [AddCommGroup G]

/-- Sum of a list of group elements (the order additions are merged in, e.g.
under the region mutex or over the mpsc channel, cannot change this value in a
commutative group). -/
def sumList : List G → G
  | [] => 0
  | x :: rest => x + sumList rest

/-- The window digit of scalar `k` at bit offset `skip` with window width `c`:
`exp.shr(skip)` followed by `exp.as_ref()[0] % (1 << c)`
(multiexp.rs lines 363-365).  Reading limb 0 after the shift is the value
modulo `2 ^ 64`. -/
def digit (c skip k : Nat) : Nat := ((k >>> skip) % 2 ^ 64) % 2 ^ c

/-- The bucket-filling loop of `multiexp_inner_with_prefetch_stable`
(multiexp.rs lines 333-374).  The loop walks `exponents.iter().zip(density)`;
the base source is a cursor into the list of bases.  On a dense entry the
source is consumed (`add_assign_mixed`) or advanced (`skip(1)`), both failing
with `SourceExhausted` when empty; on a sparse (`false`) entry nothing at all
happens to the source.  Returns the accumulator, the remaining source and the
buckets.  The prefetch of `buckets[next_exp - 1]` is a no-op and not modelled. -/
def innerLoop (skip c : Nat) (handle_trivial : Bool) :
    List (Nat × Bool) → List G → G → List G →
      Except SynthesisError (G × List G × List G)
  | [], src, acc, buckets => .ok (acc, src, buckets)
  | (exp, density) :: rest, src, acc, buckets =>
    if density then
      if exp = 0 then
        match src with
        | [] => .error .sourceExhausted
        | _ :: t => innerLoop skip c handle_trivial rest t acc buckets
      else if exp = 1 then
        if handle_trivial then
          match src with
          | [] => .error .sourceExhausted
          | base :: t => innerLoop skip c handle_trivial rest t (acc + base) buckets
        else
          match src with
          | [] => .error .sourceExhausted
          | _ :: t => innerLoop skip c handle_trivial rest t acc buckets
      else
        let e := digit c skip exp
        if e ≠ 0 then
          match src with
          | [] => .error .sourceExhausted
          | base :: t =>
            innerLoop skip c handle_trivial rest t acc
              (buckets.set (e - 1) (buckets.getD (e - 1) 0 + base))
        else
          match src with
          | [] => .error .sourceExhausted
          | _ :: t => innerLoop skip c handle_trivial rest t acc buckets
    else innerLoop skip c handle_trivial rest src acc buckets

/-- The summation-by-parts sweep (multiexp.rs lines 380-384):
`running_sum = 0; for exp in buckets.into_iter().rev() { running_sum += exp;
acc += running_sum }`, here as a loop over the reversed bucket list carrying
`(running_sum, acc)`. -/
def sbpLoop : List G → G → G → G
  | [], _, acc => acc
  | e :: rest, running, acc => sbpLoop rest (running + e) (acc + (running + e))

/-- `acc` after the summation-by-parts sweep over `buckets`. -/
def sumByParts (acc : G) (buckets : List G) : G := sbpLoop buckets.reverse 0 acc

/-- `c` applications of `higher.double()` (multiexp.rs lines 628-630). -/
def doubleN (c : Nat) (g : G) : G := (fun x => x + x)^[c] g

/-- One window task of the sparse path, `multiexp_inner_with_prefetch_stable`
(multiexp.rs lines 292-391): allocate `2^c - 1` zero buckets, run the
bucket-filling loop, then summation by parts. -/
def multiexp_inner_with_prefetch_stable (skip c : Nat) (handle_trivial : Bool)
    (exponents : List Nat) (density : List Bool) (bases : List G) :
    Except SynthesisError G :=
  match innerLoop skip c handle_trivial (exponents.zip density) bases 0
      (List.replicate (2 ^ c - 1) 0) with
  | .error e => .error e
  | .ok (acc, _, buckets) => .ok (sumByParts acc buckets)

/-- The fold inside `join_chunks` (multiexp.rs lines 626-633): for each
earlier chunk, double the running result `c` times and add the chunk. -/
def joinChunksFold (c : Nat) (higher : G) :
    List (Except SynthesisError G) → Except SynthesisError G
  | [] => .ok higher
  | chunk :: rest =>
    match chunk with
    | .error e => .error e
    | .ok this => joinChunksFold c (doubleN c higher + this) rest

/-- `join_chunks` (multiexp.rs lines 616-636): empty input yields zero;
otherwise start from the highest window result and fold over the rest in
descending order. -/
def join_chunks (chunks : List (Except SynthesisError G)) (c : Nat) :
    Except SynthesisError G :=
  match chunks.reverse with
  | [] => .ok 0
  | higher :: rest =>
    match higher with
    | .error e => .error e
    | .ok h => joinChunksFold c h rest

/-- The table of `⌊e ^ k⌋` for `k = 0, …, 23`.  Used to model
`(f64::from(n as u32)).ln().ceil() as u32`: for an integer `0 ≤ n < 2 ^ 32`
the mathematical `⌈ln n⌉` is the least `k` with `n ≤ ⌊e ^ k⌋` (and `0` for
`n = 0`, matching the saturating cast of `ceil(-inf)`), and `f64` natural log
is faithfully rounded, so its ceiling agrees with the exact one on this
range (no `ln n` with `n < 2 ^ 32` is within the rounding error of an
integer, as `e ^ k` is irrational). -/
def eFloor : List Nat :=
  [1, 2, 7, 20, 54, 148, 403, 1096, 2980, 8103, 22026, 59874, 162754,
   442413, 1202604, 3269017, 8886110, 24154952, 65659969, 178482300,
   485165195, 1318815734, 3584912846, 9744803446]

/-- Model of `(f64::from(n)).ln().ceil() as u32` for `n < 2 ^ 32`: the least
`k` with `n ≤ ⌊e ^ k⌋`. -/
def lnCeil (n : Nat) : Nat := eFloor.findIdx (fun v => n ≤ v)

/-- Window-size selection of `multiexp` (multiexp.rs lines 551-555):
`c = 3` when fewer than 32 exponents, else `ceil(ln n)` of the length cast
to `u32`. -/
def multiexp_c (n : Nat) : Nat :=
  if n < 32 then 3 else lnCeil (n % 2 ^ 32)

/-- Number of iterations of `while skip < b { …; skip += c }` for `c ≥ 1`. -/
def windowCount (b c : Nat) : Nat := (b + c - 1) / c

/-- The `skip` values `0, c, 2c, …` taken by the window loop
(multiexp.rs lines 564-576), for `c ≥ 1`. -/
def windowSkips (b c : Nat) : List Nat := (List.range (windowCount b c)).map (· * c)

/-- Modelled from the spec: `FullDensity` (source.rs is not in src/) iterates
`true` for every queried position (spec section 6.5); its `get_query_size` is
`None`, so the caller passes `none` for the query size. -/
def FullDensity (n : Nat) : List Bool := List.replicate n true

/-- The window loop and join of `multiexp` after validation
(multiexp.rs lines 564-584 together with awaiting the `ChunksJoiner`, lines
591-614): one `multiexp_inner_with_prefetch_stable` task per window, the
first with `handle_trivial = true`, then `join_chunks`.  When `c = 0` and
`b > 0` the Rust `while skip < b { skip += c }` loop never terminates. -/
def multiexpRun (b c : Nat) (bases : List G) (density : List Bool)
    (exponents : List Nat) : RunResult G :=
  if c = 0 ∧ 0 < b then .nonterm
  else
    match join_chunks ((windowSkips b c).map fun s =>
        multiexp_inner_with_prefetch_stable s c (s == 0) exponents density bases) c with
    | .ok g => .ok g
    | .error e => .err e

/-- `multiexp` (multiexp.rs lines 540-584), awaited: select `c`, `assert!`
that a known density-map query size equals the number of exponents (a failed
`assert!` is a panic, not a returned error), then run the windows and join.
`querySize` is the density map's `get_query_size()`. -/
def multiexp (b : Nat) (bases : List G) (querySize : Option Nat)
    (density : List Bool) (exponents : List Nat) : RunResult G :=
  let c := multiexp_c exponents.length
  match querySize with
  | some q => if q ≠ exponents.length then .panicked else multiexpRun b c bases density exponents
  | none => multiexpRun b c bases density exponents

/-- Window-size selection of `future_based_multiexp` (multiexp.rs lines
404-422): as `multiexp_c`, but additionally widened to `ceil(b / cpus)` when
the window count `b / width` (rounded up) is below the pool's CPU count. -/
def future_based_multiexp_c (b cpus n : Nat) : Nat :=
  if n < 32 then 3
  else
    let width := lnCeil (n % 2 ^ 32)
    let num_chunks := b / width + (if b % width ≠ 0 then 1 else 0)
    if num_chunks < cpus then b / cpus + (if b % cpus ≠ 0 then 1 else 0)
    else width

/-- Modelled from the spec: `Worker::get_chunk_size` and the chunk width the
pool's `scope` hands to its closure (worker.rs is not in src/).  Spec section
4.3: the input is split into `p` contiguous chunks of size `⌈n / p⌉`. -/
def worker_get_chunk_size (cpus n : Nat) : Nat := (n + cpus - 1) / cpus

/-- Fuel-driven splitting of a list into contiguous chunks of `sz` elements
(Rust `slice::chunks`); the fuel is the list length, which is enough whenever
`sz ≥ 1`. -/
def chunkHelper {α : Type} (sz : Nat) : Nat → List α → List (List α)
  | _, [] => []
  | 0, _ => []
  | fuel + 1, a :: t => ((a :: t).take sz) :: chunkHelper sz fuel ((a :: t).drop sz)

/-- Rust `slice::chunks(sz)` as a list of lists (for `sz ≥ 1`). -/
def listChunks {α : Type} (sz : Nat) (l : List α) : List (List α) :=
  chunkHelper sz l.length l

/-- The per-chunk loop of `dense_multiexp_inner` (multiexp.rs lines 761-784):
zero scalars contribute nothing, a scalar equal to one is added to the
accumulator only when `handle_trivial`, otherwise the window digit selects a
bucket (digit zero contributes nothing). -/
def denseLoop (skip c : Nat) (handle_trivial : Bool) :
    List (G × Nat) → G → List G → G × List G
  | [], acc, buckets => (acc, buckets)
  | (base, exp) :: rest, acc, buckets =>
    if exp ≠ 0 then
      if exp = 1 then
        if handle_trivial then denseLoop skip c handle_trivial rest (acc + base) buckets
        else denseLoop skip c handle_trivial rest acc buckets
      else
        let e := digit c skip exp
        if e ≠ 0 then
          denseLoop skip c handle_trivial rest acc
            (buckets.set (e - 1) (buckets.getD (e - 1) 0 + base))
        else denseLoop skip c handle_trivial rest acc buckets
    else denseLoop skip c handle_trivial rest acc buckets

/-- One spawned chunk worker of `dense_multiexp_inner` (multiexp.rs lines
750-802): fill `2^c - 1` buckets from the chunk, then summation by parts.
The `bind_thread` core pinning and the diagnostic prints have no effect on
the computed value and are not modelled. -/
def denseChunkResult (skip c : Nat) (handle_trivial : Bool)
    (chunk : List (G × Nat)) : G :=
  let r := denseLoop skip c handle_trivial chunk 0 (List.replicate (2 ^ c - 1) 0)
  sumByParts r.1 r.2

/-- One region (window) of `dense_multiexp_inner` (multiexp.rs lines 742-812):
the pool splits the equal-length `bases`/`exponents` into chunks (here the
zipped list is chunked, which is the same partition), each chunk worker adds
its partial sum into the mutex-protected region accumulator. -/
def denseRegion (cpus skip c : Nat) (handle_trivial : Bool)
    (bases : List G) (exponents : List Nat) : G :=
  sumList ((listChunks (worker_get_chunk_size cpus bases.length) (bases.zip exponents)).map
    (denseChunkResult skip c handle_trivial))

/-- `dense_multiexp_inner` (multiexp.rs lines 719-831): compute this region,
then `skip += c`; if `skip ≥ b` this was the highest region, otherwise
recurse, double the higher regions `c` times and add this one.  The recursion
advances `skip` by `c` each call, so fuel `b + 1` can only run out when
`c = 0`, in which case the Rust recursion never terminates. -/
def dense_multiexp_inner (cpus b c : Nat) (bases : List G) (exponents : List Nat) :
    Nat → Nat → Bool → RunResult G
  | 0, _, _ => .nonterm
  | fuel + 1, skip, handle_trivial =>
    let this := denseRegion cpus skip c handle_trivial bases exponents
    if skip + c ≥ b then .ok this
    else
      match dense_multiexp_inner cpus b c bases exponents fuel (skip + c) false with
      | .ok next_region => .ok (doubleN c next_region + this)
      | r => r

/-- `dense_multiexp` (multiexp.rs lines 642-666): a length mismatch in either
direction returns `Err(SynthesisError::AssignmentMissing)`; otherwise `c` is
3 for fewer than 32 exponents and else `ceil(ln chunk_len)` of the per-core
chunk length cast to `u32`, and the regions are computed recursively starting
at `skip = 0` with `handle_trivial = true`. -/
def dense_multiexp (cpus b : Nat) (bases : List G) (exponents : List Nat) :
    RunResult G :=
  if exponents.length ≠ bases.length then .err .assignmentMissing
  else
    let c := if exponents.length < 32 then 3
      else lnCeil ((worker_get_chunk_size cpus exponents.length) % 2 ^ 32)
    dense_multiexp_inner cpus b c bases exponents (b + 1) 0 true

/-- The pipelined bucket-index loop of one round of
`dense_multiexp_inner_consume` (multiexp.rs lines 1464-1495).  The index used
for the current base is the one computed from the previous iteration's
`next_exp_to_prefetch`; note the source computes `e = next_exp; e.shr(skip)`
into a dead variable and masks the UNSHIFTED `next_exp_to_prefetch` with
`(1 << c) - 1`, so every round uses the low `c` bits of the full scalar
(`as_ref()[0] & mask` reads the low limb, `k % 2^64 % 2^c = k % 2^c` since
the selected `c` is at most 24).  Bucket 0 receives nothing. -/
def consumeRoundLoop (c : Nat) :
    List (G × Nat) → Nat → List G → List G
  | [], _, buckets => buckets
  | (base, next_exp) :: rest, this_idx, buckets =>
    let next_idx := if next_exp ≠ 0 then next_exp % 2 ^ c else 0
    let buckets' :=
      if this_idx > 0 then buckets.set this_idx (buckets.getD this_idx 0 + base)
      else buckets
    consumeRoundLoop c rest next_idx buckets'

/-- One spawned chunk worker of `dense_multiexp_inner_consume` (multiexp.rs
lines 1440-1523): for `skip = 0, c, 2c, …` (the first round runs even when
`b = 0`, and the loop stops once `skip + c ≥ b`), fill `2^c` buckets with the
pipelined loop (the initial index is `exp[0] & mask`), reduce buckets
`1, …, 2^c - 1` by summation by parts, double the round's accumulator `skip`
times and add it to the chunk result. -/
def consumeChunk (b c : Nat) (base : List G) (exp : List Nat) : G :=
  sumList ((windowSkips (max b 1) c).map fun skip =>
    let buckets := consumeRoundLoop c (base.zip (exp.drop 1 ++ [0]))
        (exp.headD 0 % 2 ^ c) (List.replicate (2 ^ c) 0)
    doubleN skip (sumByParts 0 (buckets.drop 1)))

/-- `dense_multiexp_consume` with `dense_multiexp_inner_consume` (multiexp.rs
lines 1405-1536): a length mismatch in either direction returns
`Err(SynthesisError::AssignmentMissing)`; otherwise the chunk workers run and
their channel results are summed.  With `c = 0` and `b > 0` every chunk
worker's `loop` never terminates (`skip += 0`). -/
def dense_multiexp_consume (cpus b : Nat) (bases : List G) (exponents : List Nat) :
    RunResult G :=
  if exponents.length ≠ bases.length then .err .assignmentMissing
  else
    let c := if exponents.length < 32 then 3 else lnCeil (exponents.length % 2 ^ 32)
    if c = 0 ∧ 0 < b then .nonterm
    else
      let chunk := worker_get_chunk_size cpus bases.length
      .ok (sumList (((listChunks chunk bases).zip (listChunks chunk exponents)).map
        fun p => consumeChunk b c p.1 p.2))

/-! Specification-side definitions, used to state what the code computes. -/

/-- The naive multi-scalar multiplication `Σ kᵢ • Pᵢ` over a list of
(scalar, base) pairs -- the reference value computed by per-element scalar
multiplication, as in the repository's `naive_multiexp` test helper. -/
def naiveSum : List (Nat × G) → G
  | [] => 0
  | (k, P) :: rest => k • P + naiveSum rest

/-- What one (scalar, base) pair contributes to one window task: nothing for
scalar 0; the base itself for scalar 1 when `handle_trivial` (and nothing
otherwise); else `digit • base`. -/
def windowContrib (c skip : Nat) (handle_trivial : Bool) (k : Nat) (P : G) : G :=
  if k = 0 then 0
  else if k = 1 then (if handle_trivial then P else 0)
  else digit c skip k • P

/-- The mathematical value of one window task over a pair list. -/
def windowSpec (c skip : Nat) (handle_trivial : Bool) : List (Nat × G) → G
  | [] => 0
  | (k, P) :: rest => windowContrib c skip handle_trivial k P + windowSpec c skip handle_trivial rest

/-- `Σ (i+1) • B[i]`: the weighted bucket total that summation by parts
produces, in a recursion-friendly form. -/
def bucketTotal : List G → G
  | [] => 0
  | b :: rest => b + sumList rest + bucketTotal rest

/-- `Σⱼ 2^(c·j) • wⱼ` over a list of window values, lowest window first, in a
recursion-friendly form. -/
def weightedWindows (c : Nat) : List G → G
  | [] => 0
  | w :: rest => w + doubleN c (weightedWindows c rest)

/-- Helper mirror of `sbpLoop` without the accumulator. -/
def rwSum : List G → G → G
  | [], _ => 0
  | e :: rest, r => (r + e) + rwSum rest (r + e)

/-- Helper mirror of `joinChunksFold` on plain values. -/
def joinSpec (c : Nat) (h : G) : List G → G
  | [] => h
  | x :: xs => joinSpec c (doubleN c h + x) xs

end Defs

/-! Algebraic facts about the summation-by-parts sweep and the helpers. -/

section Lemmas

variable {G : Type} [AddCommGroup G]

theorem sumList_append (l₁ l₂ : List G) :
    sumList (l₁ ++ l₂) = sumList l₁ + sumList l₂ := by
  induction l₁ with
  | nil => simp [sumList]
  | cons x t ih =>
    show x + sumList (t ++ l₂) = (x + sumList t) + sumList l₂
    rw [ih]; abel

theorem sumList_reverse (l : List G) : sumList l.reverse = sumList l := by
  induction l with
  | nil => rfl
  | cons x t ih =>
    simp only [List.reverse_cons, sumList_append, sumList, ih]; abel

theorem doubleN_eq (c : Nat) (g : G) : doubleN c g = 2 ^ c • g := by
  induction c with
  | zero => simp [doubleN]
  | succ n ih =>
    rw [doubleN, Function.iterate_succ_apply', ← doubleN, ih,
      pow_succ, mul_two, add_smul]

theorem sbpLoop_eq (l : List G) : ∀ (r a : G), sbpLoop l r a = a + rwSum l r := by
  induction l with
  | nil => intro r a; simp [sbpLoop, rwSum]
  | cons e rest ih =>
    intro r a
    simp only [sbpLoop, rwSum, ih]; abel

theorem rwSum_append (l : List G) : ∀ (e r : G),
    rwSum (l ++ [e]) r = rwSum l r + (r + sumList l + e) := by
  induction l with
  | nil => intro e r; simp only [List.nil_append, rwSum, sumList]; abel
  | cons x t ih =>
    intro e r
    show (r + x) + rwSum (t ++ [e]) (r + x)
      = ((r + x) + rwSum t (r + x)) + (r + (x + sumList t) + e)
    rw [ih]; abel

theorem rwSum_reverse (B : List G) : rwSum B.reverse 0 = bucketTotal B := by
  induction B with
  | nil => rfl
  | cons b rest ih =>
    simp only [List.reverse_cons, rwSum_append, bucketTotal, ih, sumList_reverse]
    abel

theorem sumByParts_eq (a : G) (B : List G) :
    sumByParts a B = a + bucketTotal B := by
  rw [sumByParts, sbpLoop_eq, rwSum_reverse]

theorem sumList_set (B : List G) : ∀ (d : Nat) (P : G), d < B.length →
    sumList (B.set d (B.getD d 0 + P)) = sumList B + P := by
  induction B with
  | nil => intro d P h; simp at h
  | cons b rest ih =>
    intro d P h
    cases d with
    | zero => simp only [List.getD_cons_zero, List.set_cons_zero, sumList]; abel
    | succ d =>
      have hd : d < rest.length := by simpa using h
      simp only [List.getD_cons_succ, List.set_cons_succ, sumList, ih d P hd]
      abel

theorem bucketTotal_set (B : List G) : ∀ (d : Nat) (P : G), d < B.length →
    bucketTotal (B.set d (B.getD d 0 + P)) = bucketTotal B + (d + 1) • P := by
  induction B with
  | nil => intro d P h; simp at h
  | cons b rest ih =>
    intro d P h
    cases d with
    | zero =>
      simp only [List.getD_cons_zero, List.set_cons_zero, bucketTotal, one_nsmul]
      abel
    | succ d =>
      have hd : d < rest.length := by simpa using h
      simp only [List.getD_cons_succ, List.set_cons_succ, bucketTotal,
        sumList_set rest d P hd, ih d P hd, succ_nsmul]
      abel

theorem sumList_replicate_zero (n : Nat) : sumList (List.replicate n (0 : G)) = 0 := by
  induction n with
  | zero => rfl
  | succ n ih => simp [List.replicate_succ, sumList, ih]

theorem bucketTotal_replicate_zero (n : Nat) :
    bucketTotal (List.replicate n (0 : G)) = 0 := by
  induction n with
  | zero => rfl
  | succ n ih => simp [List.replicate_succ, bucketTotal, ih, sumList_replicate_zero]

theorem sumList_eq_finset (l : List G) :
    sumList l = ∑ i ∈ Finset.range l.length, l.getD i 0 := by
  induction l with
  | nil => rfl
  | cons x t ih =>
    rw [List.length_cons, Finset.sum_range_succ']
    simp only [List.getD_cons_succ, List.getD_cons_zero, sumList, ih]
    abel

theorem bucketTotal_eq_finset (B : List G) :
    bucketTotal B = ∑ i ∈ Finset.range B.length, (i + 1) • B.getD i 0 := by
  induction B with
  | nil => rfl
  | cons b rest ih =>
    rw [List.length_cons, Finset.sum_range_succ']
    simp only [List.getD_cons_succ, List.getD_cons_zero, bucketTotal, ih,
      sumList_eq_finset, succ_nsmul, one_nsmul, Finset.sum_add_distrib]
    abel

theorem weightedWindows_append (c : Nat) (l : List G) (a : G) :
    weightedWindows c (l ++ [a]) = weightedWindows c l + doubleN (c * l.length) a := by
  induction l with
  | nil => simp [weightedWindows, doubleN_eq]
  | cons w t ih =>
    show w + doubleN c (weightedWindows c (t ++ [a]))
      = (w + doubleN c (weightedWindows c t)) + doubleN (c * (t.length + 1)) a
    rw [ih]
    simp only [doubleN_eq, smul_add, smul_smul, ← pow_add]
    rw [show c + c * t.length = c * (t.length + 1) by ring]
    abel

theorem weightedWindows_eq_finset (c : Nat) (ws : List G) :
    weightedWindows c ws = ∑ j ∈ Finset.range ws.length, 2 ^ (c * j) • ws.getD j 0 := by
  induction ws with
  | nil => rfl
  | cons w t ih =>
    rw [List.length_cons, Finset.sum_range_succ']
    simp only [weightedWindows, ih, doubleN_eq, List.getD_cons_succ,
      List.getD_cons_zero, Finset.smul_sum, smul_smul, ← pow_add]
    have h : ∀ j, c + c * j = c * (j + 1) := fun j => by ring
    simp only [h, Nat.mul_zero, pow_zero, one_smul]
    abel

theorem weightedWindows_map_add (c : Nat) (l : List Nat) (f g : Nat → G) :
    weightedWindows c (l.map fun s => f s + g s)
      = weightedWindows c (l.map f) + weightedWindows c (l.map g) := by
  induction l with
  | nil => simp [weightedWindows]
  | cons s t ih =>
    simp only [List.map_cons, weightedWindows, ih, doubleN_eq, smul_add]
    abel

theorem weightedWindows_replicate_zero (c : Nat) (n : Nat) :
    weightedWindows c (List.replicate n (0 : G)) = 0 := by
  induction n with
  | zero => rfl
  | succ n ih => simp [List.replicate_succ, weightedWindows, ih, doubleN_eq]

theorem weightedWindows_zeros (c : Nat) (l : List Nat) :
    weightedWindows c (l.map fun _ => (0 : G)) = 0 := by
  have h : l.map (fun _ => (0 : G)) = List.replicate l.length 0 := by
    simp
  rw [h]
  exact weightedWindows_replicate_zero c l.length

theorem joinChunksFold_ok (c : Nat) (xs : List G) : ∀ h : G,
    joinChunksFold c h (xs.map (Except.ok : G → Except SynthesisError G)) = .ok (joinSpec c h xs) := by
  induction xs with
  | nil => intro h; rfl
  | cons x t ih =>
    intro h
    simp only [List.map_cons, joinChunksFold, joinSpec, ih]

theorem joinSpec_eq (c : Nat) (xs : List G) : ∀ h : G,
    joinSpec c h xs = doubleN (c * xs.length) h + weightedWindows c xs.reverse := by
  induction xs with
  | nil => intro h; simp [joinSpec, weightedWindows, doubleN_eq]
  | cons x t ih =>
    intro h
    rw [joinSpec, ih, List.reverse_cons, weightedWindows_append]
    simp only [doubleN_eq, smul_add, smul_smul, ← pow_add, List.length_reverse,
      List.length_cons]
    rw [show c * t.length + c = c * (t.length + 1) by ring]
    abel

theorem join_chunks_ok (c : Nat) (l : List G) :
    join_chunks (l.map (Except.ok : G → Except SynthesisError G)) c
      = .ok (weightedWindows c l) := by
  have hrev : (l.map (Except.ok : G → Except SynthesisError G)).reverse
      = l.reverse.map Except.ok := by
    simp
  rcases heq : l.reverse with _ | ⟨y, ys⟩
  · have hl : l = [] := by
      have h := congrArg List.reverse heq
      simpa using h
    subst hl; rfl
  · have hl : l = ys.reverse ++ [y] := by
      have h := congrArg List.reverse heq
      simpa using h
    unfold join_chunks
    rw [hrev, heq]
    simp only [List.map_cons]
    rw [joinChunksFold_ok, joinSpec_eq]
    rw [hl, weightedWindows_append]
    simp only [List.length_reverse, List.reverse_append, List.reverse_reverse,
      List.reverse_cons, List.reverse_nil, List.nil_append, List.cons_append]
    congr 1
    abel

theorem digit_lt (c skip k : Nat) : digit c skip k < 2 ^ c :=
  Nat.mod_lt _ (Nat.two_pow_pos c)

theorem digit_eq_of_le (c skip k : Nat) (hc : c ≤ 64) :
    digit c skip k = (k >>> skip) % 2 ^ c :=
  Nat.mod_mod_of_dvd _ (pow_dvd_pow 2 hc)

theorem le_c_mul_windowCount (b c : Nat) (hc : 1 ≤ c) : b ≤ c * windowCount b c := by
  unfold windowCount
  have h1 := Nat.div_add_mod (b + c - 1) c
  have h2 : (b + c - 1) % c < c := Nat.mod_lt _ (by omega)
  set q := (b + c - 1) / c with hq
  set x := c * q with hx
  omega

theorem windowCount_pos (b c : Nat) (hc : 1 ≤ c) (hb : 1 ≤ b) :
    1 ≤ windowCount b c := by
  unfold windowCount
  have h1 := Nat.div_add_mod (b + c - 1) c
  have h2 : (b + c - 1) % c < c := Nat.mod_lt _ (by omega)
  set q := (b + c - 1) / c with hq
  set x := c * q with hx
  rcases Nat.eq_zero_or_pos q with h | h
  · exfalso; rw [hx, h, Nat.mul_zero] at h1; omega
  · exact h

theorem digitSum (c : Nat) (P : G) :
    ∀ (m k : Nat), k < 2 ^ (c * m) →
      weightedWindows c ((List.range m).map fun j => ((k / 2 ^ (c * j)) % 2 ^ c) • P)
        = k • P := by
  intro m
  induction m with
  | zero =>
    intro k hk
    have hk0 : k = 0 := by
      rw [Nat.mul_zero, pow_zero] at hk; omega
    subst hk0
    simp [weightedWindows]
  | succ m ih =>
    intro k hk
    rw [List.range_succ_eq_map, List.map_cons, List.map_map]
    have hmap : (List.range m).map
          ((fun j => ((k / 2 ^ (c * j)) % 2 ^ c) • P) ∘ Nat.succ)
        = (List.range m).map (fun j => (((k / 2 ^ c) / 2 ^ (c * j)) % 2 ^ c) • P) := by
      refine List.map_congr_left ?_
      intro j _
      simp only [Function.comp_apply]
      rw [Nat.div_div_eq_div_mul, ← pow_add,
        show c + c * j = c * Nat.succ j by simp [Nat.succ_eq_add_one]; ring]
    have hdiv : k / 2 ^ c < 2 ^ (c * m) := by
      rw [Nat.div_lt_iff_lt_mul (Nat.two_pow_pos c), ← pow_add]
      rw [show c * m + c = c * Nat.succ m by simp [Nat.succ_eq_add_one]; ring]
      exact hk
    rw [weightedWindows, hmap, ih (k / 2 ^ c) hdiv]
    simp only [Nat.mul_zero, pow_zero, Nat.div_one]
    rw [doubleN_eq, smul_smul, ← add_smul]
    congr 1
    exact Nat.mod_add_div k (2 ^ c)

theorem perPairWindows (b c : Nat) (hc : 1 ≤ c) (hc64 : c ≤ 64) (k : Nat) (P : G)
    (hk : k < 2 ^ b) :
    weightedWindows c ((windowSkips b c).map fun s => windowContrib c s (s == 0) k P)
      = k • P := by
  by_cases hk0 : k = 0
  · subst hk0
    have hmap : (windowSkips b c).map (fun s => windowContrib c s (s == 0) 0 P)
        = (windowSkips b c).map (fun _ => (0 : G)) := by
      refine List.map_congr_left ?_
      intro s _
      simp [windowContrib]
    rw [hmap, weightedWindows_zeros, zero_smul]
  by_cases hk1 : k = 1
  · subst hk1
    have hb : 1 ≤ b := by
      by_contra hb
      have : b = 0 := by omega
      subst this
      simp at hk
    obtain ⟨m', hm⟩ : ∃ m', windowCount b c = m' + 1 := by
      have := windowCount_pos b c hc hb
      exact ⟨windowCount b c - 1, by omega⟩
    rw [windowSkips, hm, List.range_succ_eq_map, List.map_cons, List.map_cons]
    rw [weightedWindows]
    have hhead : windowContrib c (0 * c) ((0 * c : Nat) == 0) 1 P = P := by
      simp [windowContrib]
    have htail : (((List.range m').map Nat.succ).map (· * c)).map
          (fun s => windowContrib c s (s == 0) 1 P)
        = (((List.range m').map Nat.succ).map (· * c)).map (fun _ => (0 : G)) := by
      refine List.map_congr_left ?_
      intro s hs
      have hne : s ≠ 0 := by
        simp only [List.mem_map, List.mem_range] at hs
        obtain ⟨a, ⟨j, hj, rfl⟩, rfl⟩ := hs
        have hpos : 0 < Nat.succ j * c := by positivity
        omega
      simp [windowContrib, hne]
    rw [hhead, htail, weightedWindows_zeros]
    simp [doubleN_eq]
  · -- the general bucket path: every window contributes its digit
    have hmap : (windowSkips b c).map (fun s => windowContrib c s (s == 0) k P)
        = (List.range (windowCount b c)).map
            (fun j => ((k / 2 ^ (c * j)) % 2 ^ c) • P) := by
      rw [windowSkips, List.map_map]
      refine List.map_congr_left ?_
      intro j _
      simp only [Function.comp_apply, windowContrib, if_neg hk0, if_neg hk1]
      rw [digit_eq_of_le _ _ _ hc64, Nat.shiftRight_eq_div_pow, Nat.mul_comm j c]
    rw [hmap]
    refine digitSum c P (windowCount b c) k ?_
    calc k < 2 ^ b := hk
      _ ≤ 2 ^ (c * windowCount b c) :=
        Nat.pow_le_pow_right (by omega) (le_c_mul_windowCount b c hc)

theorem windowsNaive (b c : Nat) (hc : 1 ≤ c) (hc64 : c ≤ 64) :
    ∀ pairs : List (Nat × G), (∀ p ∈ pairs, p.1 < 2 ^ b) →
      weightedWindows c ((windowSkips b c).map fun s => windowSpec c s (s == 0) pairs)
        = naiveSum pairs := by
  intro pairs
  induction pairs with
  | nil =>
    intro _
    have hmap : (windowSkips b c).map (fun s => windowSpec c s (s == 0) ([] : List (Nat × G)))
        = (windowSkips b c).map (fun _ => (0 : G)) := rfl
    rw [hmap, weightedWindows_zeros]; rfl
  | cons p rest ih =>
    intro hp
    obtain ⟨k, P⟩ := p
    have hk : k < 2 ^ b := hp (k, P) (List.mem_cons_self _ _)
    have hrest : ∀ q ∈ rest, q.1 < 2 ^ b := fun q hq => hp q (List.mem_cons_of_mem _ hq)
    have hmap : (windowSkips b c).map (fun s => windowSpec c s (s == 0) ((k, P) :: rest))
        = (windowSkips b c).map
            (fun s => windowContrib c s (s == 0) k P + windowSpec c s (s == 0) rest) := rfl
    rw [hmap, weightedWindows_map_add, perPairWindows b c hc hc64 k P hk, ih hrest]
    rfl

/-! Step equations for the bucket-filling loop, one per branch of the Rust
`for` body. -/

theorem innerLoop_cons_false {skip c : Nat} {ht : Bool} {k : Nat}
    {rest : List (Nat × Bool)} {src : List G} {acc : G} {buckets : List G} :
    innerLoop skip c ht ((k, false) :: rest) src acc buckets
      = innerLoop skip c ht rest src acc buckets := by
  simp [innerLoop]

theorem innerLoop_cons_zero {skip c : Nat} {ht : Bool}
    {rest : List (Nat × Bool)} {bsrc : G} {t : List G} {acc : G} {buckets : List G} :
    innerLoop skip c ht ((0, true) :: rest) (bsrc :: t) acc buckets
      = innerLoop skip c ht rest t acc buckets := by
  simp [innerLoop]

theorem innerLoop_cons_one_ht {skip c : Nat}
    {rest : List (Nat × Bool)} {bsrc : G} {t : List G} {acc : G} {buckets : List G} :
    innerLoop skip c true ((1, true) :: rest) (bsrc :: t) acc buckets
      = innerLoop skip c true rest t (acc + bsrc) buckets := by
  simp [innerLoop]

theorem innerLoop_cons_one_nht {skip c : Nat}
    {rest : List (Nat × Bool)} {bsrc : G} {t : List G} {acc : G} {buckets : List G} :
    innerLoop skip c false ((1, true) :: rest) (bsrc :: t) acc buckets
      = innerLoop skip c false rest t acc buckets := by
  simp [innerLoop]

theorem innerLoop_cons_digit {skip c : Nat} {ht : Bool} {k : Nat}
    {rest : List (Nat × Bool)} {bsrc : G} {t : List G} {acc : G} {buckets : List G}
    (hk0 : k ≠ 0) (hk1 : k ≠ 1) (he : digit c skip k ≠ 0) :
    innerLoop skip c ht ((k, true) :: rest) (bsrc :: t) acc buckets
      = innerLoop skip c ht rest t acc
          (buckets.set (digit c skip k - 1) (buckets.getD (digit c skip k - 1) 0 + bsrc)) := by
  simp [innerLoop, hk0, hk1, he]

theorem innerLoop_cons_digit_zero {skip c : Nat} {ht : Bool} {k : Nat}
    {rest : List (Nat × Bool)} {bsrc : G} {t : List G} {acc : G} {buckets : List G}
    (hk0 : k ≠ 0) (hk1 : k ≠ 1) (he : digit c skip k = 0) :
    innerLoop skip c ht ((k, true) :: rest) (bsrc :: t) acc buckets
      = innerLoop skip c ht rest t acc buckets := by
  simp [innerLoop, hk0, hk1, he]

theorem innerLoop_length (skip c : Nat) (ht : Bool) :
    ∀ (pairs : List (Nat × Bool)) (src : List G) (acc : G) (buckets : List G)
      (out : G × List G × List G),
      innerLoop skip c ht pairs src acc buckets = .ok out →
      out.2.2.length = buckets.length := by
  intro pairs
  induction pairs with
  | nil =>
    intro src acc buckets out h
    simp only [innerLoop, Except.ok.injEq] at h
    rw [← h]
  | cons pr rest ih =>
    intro src acc buckets out h
    obtain ⟨k, dens⟩ := pr
    cases dens with
    | false =>
      rw [innerLoop_cons_false] at h
      exact ih src acc buckets out h
    | true =>
      cases src with
      | nil =>
        by_cases hk0 : k = 0
        · subst hk0; simp [innerLoop] at h
        by_cases hk1 : k = 1
        · subst hk1; cases ht <;> simp [innerLoop] at h
        · by_cases he : digit c skip k = 0 <;> simp [innerLoop, hk0, hk1, he] at h
      | cons bsrc t =>
        by_cases hk0 : k = 0
        · subst hk0
          rw [innerLoop_cons_zero] at h
          exact ih t acc buckets out h
        by_cases hk1 : k = 1
        · subst hk1
          cases ht with
          | true =>
            rw [innerLoop_cons_one_ht] at h
            exact ih t (acc + bsrc) buckets out h
          | false =>
            rw [innerLoop_cons_one_nht] at h
            exact ih t acc buckets out h
        · by_cases he : digit c skip k = 0
          · rw [innerLoop_cons_digit_zero hk0 hk1 he] at h
            exact ih t acc buckets out h
          · rw [innerLoop_cons_digit hk0 hk1 he] at h
            have hlen := ih t acc _ out h
            rw [hlen, List.length_set]

theorem innerLoop_full (skip c : Nat) (ht : Bool) :
    ∀ (ks : List Nat) (src : List G) (acc : G) (buckets : List G),
      ks.length ≤ src.length → buckets.length = 2 ^ c - 1 →
      ∃ acc2 buckets2,
        innerLoop skip c ht (ks.zip (List.replicate ks.length true)) src acc buckets
          = .ok (acc2, src.drop ks.length, buckets2)
        ∧ buckets2.length = 2 ^ c - 1
        ∧ sumByParts acc2 buckets2
            = sumByParts acc buckets + windowSpec c skip ht (ks.zip src) := by
  intro ks
  induction ks with
  | nil =>
    intro src acc buckets _ hb
    refine ⟨acc, buckets, ?_, hb, ?_⟩
    · simp [innerLoop]
    · simp [windowSpec]
  | cons k ks ih =>
    intro src acc buckets hlen hb
    cases src with
    | nil => simp at hlen
    | cons bsrc t =>
      have hlen' : ks.length ≤ t.length := by simpa using hlen
      rw [List.length_cons, List.replicate_succ, List.zip_cons_cons,
        List.zip_cons_cons]
      by_cases hk0 : k = 0
      · subst hk0
        obtain ⟨a2, b2, heq, hl2, hs2⟩ := ih t acc buckets hlen' hb
        refine ⟨a2, b2, ?_, hl2, ?_⟩
        · rw [innerLoop_cons_zero, List.drop_succ_cons, heq]
        · rw [hs2, windowSpec]
          simp only [windowContrib, if_pos rfl]
          abel
      by_cases hk1 : k = 1
      · subst hk1
        cases ht with
        | true =>
          obtain ⟨a2, b2, heq, hl2, hs2⟩ := ih t (acc + bsrc) buckets hlen' hb
          refine ⟨a2, b2, ?_, hl2, ?_⟩
          · rw [innerLoop_cons_one_ht, List.drop_succ_cons, heq]
          · rw [hs2, windowSpec, sumByParts_eq, sumByParts_eq]
            simp only [windowContrib, one_ne_zero, if_neg, if_pos rfl, reduceIte]
            abel
        | false =>
          obtain ⟨a2, b2, heq, hl2, hs2⟩ := ih t acc buckets hlen' hb
          refine ⟨a2, b2, ?_, hl2, ?_⟩
          · rw [innerLoop_cons_one_nht, List.drop_succ_cons, heq]
          · rw [hs2, windowSpec]
            simp only [windowContrib, one_ne_zero, if_neg, if_pos rfl, reduceIte]
            abel
      · by_cases he : digit c skip k = 0
        · obtain ⟨a2, b2, heq, hl2, hs2⟩ := ih t acc buckets hlen' hb
          refine ⟨a2, b2, ?_, hl2, ?_⟩
          · rw [innerLoop_cons_digit_zero hk0 hk1 he, List.drop_succ_cons, heq]
          · rw [hs2, windowSpec]
            simp only [windowContrib, if_neg hk0, if_neg hk1, he, zero_smul]
            abel
        · have hlt : digit c skip k - 1 < buckets.length := by
            have h1 := digit_lt c skip k
            omega
          obtain ⟨a2, b2, heq, hl2, hs2⟩ := ih t acc
            (buckets.set (digit c skip k - 1)
              (buckets.getD (digit c skip k - 1) 0 + bsrc)) hlen'
            (by rw [List.length_set]; exact hb)
          refine ⟨a2, b2, ?_, hl2, ?_⟩
          · rw [innerLoop_cons_digit hk0 hk1 he, List.drop_succ_cons, heq]
          · rw [hs2, windowSpec, sumByParts_eq, sumByParts_eq,
              bucketTotal_set buckets _ _ hlt]
            simp only [windowContrib, if_neg hk0, if_neg hk1]
            rw [show digit c skip k - 1 + 1 = digit c skip k by omega]
            abel

theorem inner_full (skip c : Nat) (ht : Bool) (ks : List Nat) (bases : List G)
    (hlen : ks.length ≤ bases.length) :
    multiexp_inner_with_prefetch_stable skip c ht ks (List.replicate ks.length true) bases
      = .ok (windowSpec c skip ht (ks.zip bases)) := by
  obtain ⟨a2, b2, heq, _, hs2⟩ := innerLoop_full skip c ht ks bases 0
    (List.replicate (2 ^ c - 1) 0) hlen (by simp)
  unfold multiexp_inner_with_prefetch_stable
  rw [heq]
  refine congrArg Except.ok ?_
  rw [sumByParts_eq, sumByParts_eq, bucketTotal_replicate_zero] at hs2
  rw [sumByParts_eq, hs2]
  abel

theorem lnCeil_le (n : Nat) : lnCeil n ≤ 24 := by
  have h : eFloor.findIdx (fun v => n ≤ v) ≤ eFloor.length :=
    List.findIdx_le_length _
  simpa [lnCeil, eFloor] using h

theorem lnCeil_ge_four {n : Nat} (h : 32 ≤ n) : 4 ≤ lnCeil n := by
  have h1 : (decide (n ≤ 1)) = false := decide_eq_false (by omega)
  have h2 : (decide (n ≤ 2)) = false := decide_eq_false (by omega)
  have h7 : (decide (n ≤ 7)) = false := decide_eq_false (by omega)
  have h20 : (decide (n ≤ 20)) = false := decide_eq_false (by omega)
  unfold lnCeil eFloor
  simp only [List.findIdx_cons, h1, h2, h7, h20, cond_false]
  omega

theorem multiexp_c_bounds (n : Nat) (h : n < 2 ^ 32) :
    1 ≤ multiexp_c n ∧ multiexp_c n ≤ 64 := by
  unfold multiexp_c
  split
  · omega
  · rename_i h32
    rw [Nat.mod_eq_of_lt h]
    constructor
    · have := lnCeil_ge_four (show 32 ≤ n by omega)
      omega
    · have := lnCeil_le n
      omega

theorem div_ceil_bridge (a w : Nat) (hw : 1 ≤ w) :
    a / w + (if a % w ≠ 0 then 1 else 0) = (a + w - 1) / w := by
  have hd := Nat.div_add_mod a w
  have hm : a % w < w := Nat.mod_lt _ (by omega)
  set q := a / w with hq
  set r := a % w with hr
  rcases Nat.eq_zero_or_pos r with h0 | h0
  · rw [if_neg (by omega)]
    have hnum : a + w - 1 = w * q + (w - 1) := by omega
    rw [hnum, Nat.mul_add_div (by omega), Nat.div_eq_of_lt (by omega)]
  · rw [if_pos (by omega)]
    have hnum : a + w - 1 = w * q + (r - 1 + w) := by omega
    rw [hnum, Nat.mul_add_div (by omega), Nat.add_div_right _ (by omega),
      Nat.div_eq_of_lt (by omega)]

theorem multiexpRun_full (b c : Nat) (hc : 1 ≤ c) (hc64 : c ≤ 64)
    (bases : List G) (ks : List Nat) (hlen : ks.length ≤ bases.length)
    (hk : ∀ k ∈ ks, k < 2 ^ b) :
    multiexpRun b c bases (List.replicate ks.length true) ks
      = .ok (naiveSum (ks.zip bases)) := by
  have hpairs : ∀ p ∈ ks.zip bases, p.1 < 2 ^ b := by
    intro p hp
    obtain ⟨k, P⟩ := p
    exact hk k (List.of_mem_zip hp).1
  unfold multiexpRun
  rw [if_neg (show ¬(c = 0 ∧ 0 < b) by omega)]
  have hmap : (windowSkips b c).map (fun s =>
        multiexp_inner_with_prefetch_stable s c (s == 0) ks
          (List.replicate ks.length true) bases)
      = ((windowSkips b c).map fun s => windowSpec c s (s == 0) (ks.zip bases)).map
          Except.ok := by
    rw [List.map_map]
    refine List.map_congr_left ?_
    intro s _
    exact inner_full s c (s == 0) ks bases hlen
  rw [hmap, join_chunks_ok, windowsNaive b c hc hc64 (ks.zip bases) hpairs]

theorem windowCount_eq_one {d c : Nat} (hc : 1 ≤ c) (hd1 : 1 ≤ d) (hdc : d ≤ c) :
    windowCount d c = 1 := by
  have h1 := windowCount_pos d c hc hd1
  have h2 : windowCount d c < 2 := by
    unfold windowCount
    rw [Nat.div_lt_iff_lt_mul (by omega)]
    omega
  omega

theorem windowCount_succ (d c : Nat) (hc : 1 ≤ c) (hdc : c < d) :
    windowCount d c = windowCount (d - c) c + 1 := by
  unfold windowCount
  rw [show d + c - 1 = (d - 1) + c by omega, Nat.add_div_right _ (by omega),
    show d - c + c - 1 = d - 1 by omega]

theorem windowCount_le (b c : Nat) (hc : 1 ≤ c) : windowCount b c ≤ b + 1 := by
  unfold windowCount
  have h2 : b ≤ c * b := Nat.le_mul_of_pos_left b (by omega)
  have h3 : c * (b + 1) = c * b + c := by ring
  exact (Nat.div_le_iff_le_mul_add_pred (by omega)).mpr (by omega)

theorem dense_inner_step_last {cpus b c : Nat} {bases : List G} {exps : List Nat}
    {f skip : Nat} {ht : Bool} (hend : skip + c ≥ b) :
    dense_multiexp_inner cpus b c bases exps (f + 1) skip ht
      = .ok (denseRegion cpus skip c ht bases exps) := by
  simp only [dense_multiexp_inner]
  rw [if_pos hend]

theorem dense_inner_step_rec {cpus b c : Nat} {bases : List G} {exps : List Nat}
    {f skip : Nat} {ht : Bool} (hend : ¬ skip + c ≥ b) :
    dense_multiexp_inner cpus b c bases exps (f + 1) skip ht
      = match dense_multiexp_inner cpus b c bases exps f (skip + c) false with
        | .ok next_region =>
          .ok (doubleN c next_region + denseRegion cpus skip c ht bases exps)
        | r => r := by
  simp only [dense_multiexp_inner]
  rw [if_neg hend]

theorem dense_inner_no_err (cpus b c : Nat) (bases : List G) (exps : List Nat) :
    ∀ (fuel skip : Nat) (ht : Bool) (e : SynthesisError),
      dense_multiexp_inner cpus b c bases exps fuel skip ht ≠ .err e := by
  intro fuel
  induction fuel with
  | zero =>
    intro skip ht e h
    simp [dense_multiexp_inner] at h
  | succ f ih =>
    intro skip ht e h
    by_cases hend : skip + c ≥ b
    · rw [dense_inner_step_last hend] at h
      simp at h
    · rw [dense_inner_step_rec hend] at h
      rcases hrec : dense_multiexp_inner cpus b c bases exps f (skip + c) false
        with g | e' | _ | _ <;> rw [hrec] at h
      · simp at h
      · exact ih (skip + c) false e' hrec
      · simp at h
      · simp at h

theorem dense_inner_combine (cpus b c : Nat) (bases : List G) (exps : List Nat)
    (hc : 1 ≤ c) :
    ∀ (fuel skip : Nat) (ht : Bool), skip < b →
      windowCount (b - skip) c ≤ fuel →
      dense_multiexp_inner cpus b c bases exps fuel skip ht
        = .ok (∑ j ∈ Finset.range (windowCount (b - skip) c),
            2 ^ (c * j) • denseRegion cpus (skip + c * j) c
              (if j = 0 then ht else false) bases exps) := by
  intro fuel
  induction fuel with
  | zero =>
    intro skip ht hlt hfuel
    have := windowCount_pos (b - skip) c hc (by omega)
    omega
  | succ f ih =>
    intro skip ht hlt hfuel
    by_cases hend : skip + c ≥ b
    · rw [dense_inner_step_last hend]
      rw [windowCount_eq_one hc (by omega) (by omega)]
      rw [Finset.sum_range_succ, Finset.sum_range_zero]
      simp
    · rw [dense_inner_step_rec hend]
      have hlt' : skip + c < b := by omega
      have hwc := windowCount_succ (b - skip) c hc (by omega)
      rw [show b - skip - c = b - (skip + c) by omega] at hwc
      have hfuel' : windowCount (b - (skip + c)) c ≤ f := by omega
      rw [ih (skip + c) false (by omega) hfuel']
      have hsum :
          doubleN c (∑ j ∈ Finset.range (windowCount (b - (skip + c)) c),
              2 ^ (c * j) • denseRegion cpus ((skip + c) + c * j) c
                (if j = 0 then false else false) bases exps)
            + denseRegion cpus skip c ht bases exps
          = ∑ j ∈ Finset.range (windowCount (b - skip) c),
              2 ^ (c * j) • denseRegion cpus (skip + c * j) c
                (if j = 0 then ht else false) bases exps := by
        rw [hwc, Finset.sum_range_succ']
        simp only [doubleN_eq, Finset.smul_sum, smul_smul, ite_self]
        congr 1
        · refine Finset.sum_congr rfl ?_
          intro j _
          rw [show (2 : Nat) ^ c * 2 ^ (c * j) = 2 ^ (c * (j + 1)) by
              rw [← pow_add]; congr 1; ring,
            show skip + c + c * j = skip + c * (j + 1) by ring]
          simp
        · simp
      exact congrArg RunResult.ok hsum

end Lemmas

/-! The claims. -/

/-- C1: for every pool, every vector of affine bases and every vector of
scalar representations with `|scalars| ≤ |bases|`, awaiting
`multiexp(pool, bases, FullDensity, scalars)` returns `Ok(R)` where `R`
equals the naive sum `Σ scalars[i] • bases[i]` computed by per-element scalar
multiplication.  Stated for canonical representations (`k < 2 ^ NUM_BITS`,
true of every `into_repr` image) and vectors shorter than `2 ^ 32` (the
length is cast to `u32` when selecting the window size). -/
theorem c1_multiexp_full_density_matches_naive {G : Type} [AddCommGroup G]
    (b : Nat) (bases : List G) (scalars : List Nat)
    (hlen : scalars.length ≤ bases.length)
    (hn : scalars.length < 2 ^ 32)
    (hk : ∀ k ∈ scalars, k < 2 ^ b) :
    multiexp b bases none (FullDensity scalars.length) scalars
      = .ok (naiveSum (scalars.zip bases)) := by
  obtain ⟨h1, h64⟩ := multiexp_c_bounds scalars.length hn
  show multiexpRun b (multiexp_c scalars.length) bases
      (List.replicate scalars.length true) scalars = _
  exact multiexpRun_full b (multiexp_c scalars.length) h1 h64 bases scalars hlen hk

theorem c1_witness :
    ([2, 7] : List Nat).length ≤ ([3, 5] : List Int).length ∧
    multiexp 3 [(3 : Int), 5] none (FullDensity 2) [2, 7]
      = .ok (naiveSum (([2, 7] : List Nat).zip [(3 : Int), 5])) :=
  ⟨by decide, c1_multiexp_full_density_matches_naive 3 [(3 : Int), 5] [2, 7]
    (by decide) (by decide) (by decide)⟩

/-- C2 (evaluation at the failing input): the three entry points do NOT
agree.  On `bases = [P]`, `scalars = [8]`, `NUM_BITS = 6` (any bit width
above 3 shows it; `c = 3` here), one CPU, the sparse path and
`dense_multiexp` both return `8 • P`, but `dense_multiexp_consume` returns
`0`: its kernel shifts the exponent into a dead variable
(`let mut e = next_exp_to_prefetch; e.shr(skip);`) and masks the unshifted
scalar, so every window uses the low `c` bits (`8 % 8 = 0`). -/
theorem c2_consume_path_disagrees_eval :
    multiexp 6 [(1 : Int)] none (FullDensity 1) [8] = .ok 8 ∧
    dense_multiexp 1 6 [(1 : Int)] [8] = .ok 8 ∧
    dense_multiexp_consume 1 6 [(1 : Int)] [8] = .ok 0 ∧
    (8 : Int) ≠ 0 := by decide

/-- C3 counterexample: a `false` density entry does NOT advance the base
stream.  Running the kernel loop on one sparse entry leaves the source
exactly as it was (`[5]`), whereas the claim says the cursor moves past one
base (which would leave `List.drop 1 [5] = []`). -/
theorem c3_counterexample :
    innerLoop 0 3 true [(2, false)] [(5 : Int)] 0 (List.replicate 7 0)
      = .ok (0, [5], List.replicate 7 0)
    ∧ ([5] : List Int) ≠ List.drop 1 [5] := by decide

/-- C3 (amended): in the window kernel used by multiexp, a position whose
density-map entry is false is skipped entirely: the scalar contributes
nothing to any bucket or to the accumulator, and the base stream is NOT
advanced -- the base cursor does not move (the next dense entry consumes the
same base). -/
theorem c3_amended_false_entry_skips_scalar_only {G : Type} [AddCommGroup G]
    (skip c : Nat) (handle_trivial : Bool) (k : Nat) (rest : List (Nat × Bool))
    (src : List G) (acc : G) (buckets : List G) :
    innerLoop skip c handle_trivial ((k, false) :: rest) src acc buckets
      = innerLoop skip c handle_trivial rest src acc buckets :=
  innerLoop_cons_false

/-- C4 counterexample: a density map exposing `query_size = 5` against two
exponents makes `multiexp` PANIC (the `assert!` at multiexp.rs line 561), not
return a `LengthMismatch`-style error value. -/
theorem c4_counterexample :
    multiexp 4 [(1 : Int)] (some 5) [true, true] [2, 3] = .panicked ∧
    multiexp 4 [(1 : Int)] (some 5) [true, true] [2, 3] ≠ .err .assignmentMissing ∧
    multiexp 4 [(1 : Int)] (some 5) [true, true] [2, 3] ≠ .err .sourceExhausted := by
  decide

/-- C4 (amended): `dense_multiexp` returns `Err(AssignmentMissing)`
synchronously whenever the lengths differ (in particular when
`|bases| < |scalars|`); `multiexp`, by contrast, panics via `assert!` when a
density map exposes a `query_size` differing from `|scalars|` (and performs
no `|bases|`-versus-`|scalars|` validation at entry at all -- exhaustion only
surfaces later as a source error in the awaited result). -/
theorem c4_amended_validation {G : Type} [AddCommGroup G]
    (cpus b q : Nat) (bases : List G) (density : List Bool) (exponents : List Nat)
    (hne : exponents.length ≠ bases.length) (hq : q ≠ exponents.length) :
    dense_multiexp cpus b bases exponents = .err .assignmentMissing ∧
    multiexp b bases (some q) density exponents = .panicked := by
  constructor
  · simp only [dense_multiexp]
    rw [if_pos hne]
  · show (if q ≠ exponents.length then RunResult.panicked
      else multiexpRun b (multiexp_c exponents.length) bases density exponents)
      = RunResult.panicked
    rw [if_pos hq]

theorem c4_witness :
    dense_multiexp 1 4 [(1 : Int)] [2, 3] = .err .assignmentMissing ∧
    multiexp 4 [(1 : Int)] (some 5) [true] [2, 3] = .panicked :=
  c4_amended_validation 1 4 5 [(1 : Int)] [true] [2, 3] (by decide) (by decide)

/-- C5: window-size selection.  `multiexp` and `future_based_multiexp` choose
`c = 3` when the number of exponents is below 32 and `c = ⌈ln n⌉` otherwise
(`lnCeil`, the embedding of `f64::ln().ceil() as u32`); in addition,
`future_based_multiexp` sets `c = ⌈NUM_BITS / cpus⌉` exactly when the number
of windows `⌈NUM_BITS / c⌉` would be fewer than the pool's CPU count. -/
theorem c5_window_size_selection (n b cpus : Nat) (h32 : n < 2 ^ 32)
    (hcpus : 1 ≤ cpus) :
    (n < 32 → multiexp_c n = 3 ∧ future_based_multiexp_c b cpus n = 3) ∧
    (32 ≤ n →
      multiexp_c n = lnCeil n ∧
      future_based_multiexp_c b cpus n =
        if (b + lnCeil n - 1) / lnCeil n < cpus then (b + cpus - 1) / cpus
        else lnCeil n) := by
  constructor
  · intro h
    constructor
    · unfold multiexp_c; rw [if_pos h]
    · unfold future_based_multiexp_c; rw [if_pos h]
  · intro h
    have h32' : ¬ n < 32 := by omega
    have hm : n % 2 ^ 32 = n := Nat.mod_eq_of_lt h32
    have hw : 1 ≤ lnCeil n := by
      have := lnCeil_ge_four h
      omega
    constructor
    · unfold multiexp_c; rw [if_neg h32', hm]
    · unfold future_based_multiexp_c
      rw [if_neg h32', hm]
      show (if b / lnCeil n + (if b % lnCeil n ≠ 0 then 1 else 0) < cpus
          then b / cpus + (if b % cpus ≠ 0 then 1 else 0)
          else lnCeil n) = _
      rw [div_ceil_bridge b (lnCeil n) hw, div_ceil_bridge b cpus hcpus]

theorem c5_witness :
    multiexp_c 100 = lnCeil 100 ∧
    future_based_multiexp_c 254 8 100 =
      if (254 + lnCeil 100 - 1) / lnCeil 100 < 8 then (254 + 8 - 1) / 8
      else lnCeil 100 :=
  (c5_window_size_selection 100 254 8 (by decide) (by decide)).2 (by decide)

/-- C6: window combination.  `join_chunks` over per-window partial sums (all
`Ok`) starts from the highest window, doubling `c` times before adding each
lower one, so window `j` is weighed by `2 ^ (c·j)`; and the recursion of
`dense_multiexp_inner` performs the same combination over its per-region
partial sums. -/
theorem c6_window_combination {G : Type} [AddCommGroup G]
    (ws : List G) (c cpus b : Nat) (bases : List G) (exps : List Nat)
    (hc : 1 ≤ c) (hb : 1 ≤ b) :
    join_chunks (ws.map Except.ok) c
      = .ok (∑ j ∈ Finset.range ws.length, 2 ^ (c * j) • ws.getD j 0) ∧
    dense_multiexp_inner cpus b c bases exps (b + 1) 0 true
      = .ok (∑ j ∈ Finset.range (windowCount b c),
          2 ^ (c * j) • denseRegion cpus (c * j) c (if j = 0 then true else false)
            bases exps) := by
  constructor
  · rw [join_chunks_ok, weightedWindows_eq_finset]
  · have hfuel : windowCount (b - 0) c ≤ b + 1 := by
      rw [Nat.sub_zero]
      exact windowCount_le b c hc
    have h := dense_inner_combine cpus b c bases exps hc (b + 1) 0 true (by omega) hfuel
    simpa using h

theorem c6_witness :
    join_chunks (([(2 : Int), 5]).map Except.ok) 3
      = .ok (∑ j ∈ Finset.range ([(2 : Int), 5]).length,
          2 ^ (3 * j) • ([(2 : Int), 5]).getD j 0) ∧
    dense_multiexp_inner 1 4 3 [(1 : Int)] [8] 5 0 true
      = .ok (∑ j ∈ Finset.range (windowCount 4 3),
          2 ^ (3 * j) • denseRegion 1 (3 * j) 3 (if j = 0 then true else false)
            [(1 : Int)] [8]) :=
  c6_window_combination [(2 : Int), 5] 3 1 4 [(1 : Int)] [8] (by decide) (by decide)

/-- C7: summation by parts.  For every bucket array `B` and initial
accumulator `acc0`, the reverse sweep (`running = 0`; highest bucket down to
the lowest: `running += B[i]; acc += running`) terminates with
`acc = acc0 + Σ i • B[i]` (bucket `B[i]`, stored at index `i - 1`, weighed by
its one-based position), using only group additions and no scalar
multiplications. -/
theorem c7_summation_by_parts {G : Type} [AddCommGroup G] (acc0 : G) (B : List G) :
    sumByParts acc0 B = acc0 + ∑ i ∈ Finset.range B.length, (i + 1) • B.getD i 0 := by
  rw [sumByParts_eq, bucketTotal_eq_finset]

/-- C8: bucket indexing is always in bounds.  The bucket vector has exactly
`2 ^ c - 1` entries; every digit `d` is below `2 ^ c`, and on the indexing
path (`d ≠ 0`, which is also the guard of the prefetch address computation
for the next pair) the accessed index `d - 1` is below `2 ^ c - 1`; and the
kernel loop never changes the bucket-vector length, so this holds throughout
the run for every input. -/
theorem c8_bucket_indexing_in_bounds {G : Type} [AddCommGroup G] (c skip : Nat) :
    (List.replicate (2 ^ c - 1) (0 : G)).length = 2 ^ c - 1 ∧
    (∀ k : Nat, digit c skip k < 2 ^ c) ∧
    (∀ k : Nat, digit c skip k ≠ 0 → digit c skip k - 1 < 2 ^ c - 1) ∧
    (∀ (handle_trivial : Bool) (pairs : List (Nat × Bool)) (src : List G)
        (acc : G) (buckets : List G) (out : G × List G × List G),
      innerLoop skip c handle_trivial pairs src acc buckets = .ok out →
      out.2.2.length = buckets.length) := by
  refine ⟨by simp, fun k => digit_lt c skip k, fun k hk => ?_, ?_⟩
  · have := digit_lt c skip k
    omega
  · intro ht pairs src acc buckets out h
    exact innerLoop_length skip c ht pairs src acc buckets out h

theorem c8_witness :
    digit 3 0 5 - 1 < 2 ^ 3 - 1 ∧
    ([0, 0, 0, 0, 2, 0, 0] : List Int).length = (List.replicate 7 (0 : Int)).length :=
  ⟨(@c8_bucket_indexing_in_bounds Int _ 3 0).2.2.1 5 (by decide),
   (@c8_bucket_indexing_in_bounds Int _ 3 0).2.2.2 true [(5, true)] [(2 : Int)] 0
     (List.replicate 7 0) ((0 : Int), ([] : List Int), [0, 0, 0, 0, 2, 0, 0])
     (by decide)⟩

/-- C9 (evaluation at the failing input): the result of `dense_multiexp` is
NOT the same for every worker-pool CPU count.  On 32 bases `1, …, 32` with
all scalars 1 (`NUM_BITS = 4`), a pool of width 1 returns `Σ bases = 528`,
but a pool of width 32 gives chunk length 1, hence `c = ceil(ln 1) = 0`, and
`dense_multiexp_inner` recurses with `skip += 0` forever -- the call never
returns. -/
theorem c9_pool_width_changes_outcome_eval :
    dense_multiexp 1 4 ((List.range 32).map fun i => ((i : Int) + 1))
        (List.replicate 32 1) = .ok 528 ∧
    dense_multiexp 32 4 ((List.range 32).map fun i => ((i : Int) + 1))
        (List.replicate 32 1) = .nonterm := by decide

/-- C10: the dense entry points accept only exactly matching lengths:
`dense_multiexp` and `dense_multiexp_consume` return
`Err(SynthesisError::AssignmentMissing)` exactly when the lengths differ (in
either direction, including `|bases| > |scalars|`), and when the lengths are
equal no length-validation error can occur. -/
theorem c10_dense_length_validation {G : Type} [AddCommGroup G]
    (cpus b : Nat) (bases : List G) (exponents : List Nat) :
    (dense_multiexp cpus b bases exponents = .err .assignmentMissing
       ↔ exponents.length ≠ bases.length) ∧
    (dense_multiexp_consume cpus b bases exponents = .err .assignmentMissing
       ↔ exponents.length ≠ bases.length) := by
  constructor
  · constructor
    · intro h
      by_contra hne
      simp only [dense_multiexp] at h
      rw [if_neg (by omega : ¬ exponents.length ≠ bases.length)] at h
      exact dense_inner_no_err cpus b _ bases exponents (b + 1) 0 true _ h
    · intro hne
      simp only [dense_multiexp]
      rw [if_pos hne]
  · constructor
    · intro h
      by_contra hne
      simp only [dense_multiexp_consume] at h
      rw [if_neg (by omega : ¬ exponents.length ≠ bases.length)] at h
      split at h <;> split at h <;> simp at h
    · intro hne
      simp only [dense_multiexp_consume]
      rw [if_pos hne]

theorem c10_witness :
    dense_multiexp 1 4 [(1 : Int)] [2, 3] = .err .assignmentMissing ∧
    ¬ dense_multiexp_consume 1 4 [(1 : Int), 2] [2, 3] = .err .assignmentMissing :=
  ⟨(c10_dense_length_validation 1 4 [(1 : Int)] [2, 3]).1.mpr (by decide),
   fun h => (by decide : ¬ ([2, 3] : List Nat).length ≠ ([(1 : Int), 2]).length)
     ((c10_dense_length_validation 1 4 [(1 : Int), 2] [2, 3]).2.mp h)⟩

end BellmanMultiexp
